import Mathlib

/-! Verification of the laracasts-downloader transfer engine.

Shallow embedding, in Lean 4, of the core logic of the `laracasts-downloader`
repository: the chunked range-download scheduler and fetcher of the `vimeo`
package, the durable key/value cache of the `cache` package, and the
episode-skip logic of the `downloader` package.  Sizes, offsets and counts are
Go `int64` values that are guaranteed non-negative at the points modelled
(the scheduler rejects `fileSize <= 0` before chunking), so they are embedded
as `Nat`; no arithmetic below ever approaches `2^63`, so wrap-around is not
observable and is not modelled.
-/

namespace LaracastsDL

/-! ## Constants of the vimeo package -/

/-- Go: `ChunkSize = 20 * 1024 * 1024` (20MB chunks). -/
def ChunkSize : Nat := 20 * 1024 * 1024

/-- Go: `MaxChunkWorkers = 15` (concurrent chunks per download). -/
def MaxChunkWorkers : Nat := 15

/-- Go: `MaxRetries = 3` (maximum retries per chunk). -/
def MaxRetries : Nat := 3

/-- Go: `MemoryBuffer = 32 * 1024` (32KB buffer for file operations). -/
def MemoryBuffer : Nat := 32 * 1024

/-! ## Chunk generation (`downloadWithChunks`, src/unnamed/part_008) -/

/-- One half-open byte range `[start, stop)`.  Go: the anonymous
`struct { start int64; end int64 }` built inside `downloadWithChunks`
(`end` is a Lean keyword, hence the field name `stop`). -/
structure Chunk where
  start : Nat
  stop : Nat
deriving DecidableEq, Repr

/-- Go: `numChunks := int(math.Ceil(float64(fileSize) / float64(ChunkSize)))`.
For the `int64` content lengths accepted by the scheduler (below `2^53`, where
`float64` represents every integer exactly and the quotient rounds without
crossing an integer), the float computation equals the exact ceiling
division `(fileSize + chunkSize - 1) / chunkSize` embedded here. -/
def numChunks (fileSize chunkSize : Nat) : Nat :=
  (fileSize + chunkSize - 1) / chunkSize

/-- Go, `downloadWithChunks`:

```
for i := 0; i < numChunks; i++ {
    start := int64(i) * ChunkSize
    end := start + ChunkSize
    if end > fileSize { end = fileSize }
    chunks[i] = struct{ start int64; end int64 }{start, end}
}
```

The chunk size is kept as a parameter; the program instantiates it with the
constant `ChunkSize`. -/
def mkChunks (fileSize chunkSize : Nat) : List Chunk :=
  (List.range (numChunks fileSize chunkSize)).map fun i =>
    let start := i * chunkSize
    let e := start + chunkSize
    { start := start, stop := if e > fileSize then fileSize else e }

/-! ### Arithmetic facts about the ceiling division used by `numChunks` -/

lemma le_numChunks_mul (n cs : Nat) (hn : 0 < n) (hcs : 0 < cs) :
    n ≤ numChunks n cs * cs := by
  by_contra hlt
  push_neg at hlt
  have h1 : (numChunks n cs + 1) * cs ≤ n + cs - 1 := by
    have := Nat.add_mul (numChunks n cs) 1 cs
    omega
  have h2 : numChunks n cs + 1 ≤ (n + cs - 1) / cs :=
    (Nat.le_div_iff_mul_le hcs).mpr h1
  simp only [numChunks] at h2
  omega

lemma numChunks_pred_mul_lt (n cs : Nat) (hn : 0 < n) (hcs : 0 < cs) :
    (numChunks n cs - 1) * cs < n := by
  have hN : 0 < numChunks n cs := by
    have : 1 * cs ≤ n + cs - 1 := by omega
    have := (Nat.le_div_iff_mul_le hcs).mpr this
    simpa [numChunks] using this
  by_contra hle
  push_neg at hle
  have h1 : n + cs - 1 < numChunks n cs * cs := by
    have hpred : (numChunks n cs - 1) + 1 = numChunks n cs := by omega
    have : ((numChunks n cs - 1) + 1) * cs = (numChunks n cs - 1) * cs + 1 * cs :=
      Nat.add_mul (numChunks n cs - 1) 1 cs
    rw [hpred] at this
    omega
  have h2 : (n + cs - 1) / cs < numChunks n cs :=
    (Nat.div_lt_iff_lt_mul hcs).mpr h1
  simp only [numChunks] at h2
  omega

/-- The `i`-th generated chunk, in closed form. -/
lemma mkChunks_get (n cs : Nat) (i : Nat) (hi : i < numChunks n cs) :
    (mkChunks n cs).get ⟨i, by simpa [mkChunks] using hi⟩ =
      { start := i * cs, stop := if i * cs + cs > n then n else i * cs + cs } := by
  simp [mkChunks]

lemma mem_mkChunks_iff (n cs : Nat) (c : Chunk) :
    c ∈ mkChunks n cs ↔ ∃ i < numChunks n cs,
      c = { start := i * cs, stop := if i * cs + cs > n then n else i * cs + cs } := by
  constructor
  · intro hc
    simp only [mkChunks, List.mem_map, List.mem_range] at hc
    obtain ⟨i, hi, hEq⟩ := hc
    exact ⟨i, hi, hEq.symm⟩
  · rintro ⟨i, hi, rfl⟩
    simp only [mkChunks, List.mem_map, List.mem_range]
    exact ⟨i, hi, rfl⟩

lemma mkChunks_stop_le (n cs : Nat) (c : Chunk) (hc : c ∈ mkChunks n cs) :
    c.stop ≤ n := by
  rw [mem_mkChunks_iff] at hc
  obtain ⟨i, hi, rfl⟩ := hc
  dsimp only
  split
  · exact le_refl n
  · omega

lemma chunk_cover (n cs : Nat) (hn : 0 < n) (hcs : 0 < cs) (x : Nat) (hx : x < n) :
    ∃ c ∈ mkChunks n cs, c.start ≤ x ∧ x < c.stop := by
  refine ⟨{ start := (x / cs) * cs,
            stop := if (x / cs) * cs + cs > n then n else (x / cs) * cs + cs }, ?_, ?_, ?_⟩
  · rw [mem_mkChunks_iff]
    refine ⟨x / cs, ?_, rfl⟩
    exact (Nat.div_lt_iff_lt_mul hcs).mpr (lt_of_lt_of_le hx (le_numChunks_mul n cs hn hcs))
  · exact Nat.div_mul_le_self x cs
  · have hlt : x < (x / cs) * cs + cs := by
      calc x < cs * (x / cs + 1) := Nat.lt_mul_div_succ x hcs
        _ = (x / cs) * cs + cs := by ring
    dsimp only
    split
    · exact hx
    · exact hlt

/-- C1: for every positive `totalSize` (and positive chunk size), the chunk
list generated by `downloadWithChunks` has exactly
`ceil(totalSize / chunkSize)` chunks, every chunk `[start, stop)` satisfies
`stop - start ≤ chunkSize`, the chunks are pairwise disjoint, and their union
equals `[0, totalSize)`. -/
theorem chunks_tile (n cs : Nat) (hn : 0 < n) (hcs : 0 < cs) :
    (mkChunks n cs).length = (n + cs - 1) / cs ∧
    (∀ c ∈ mkChunks n cs, c.stop - c.start ≤ cs) ∧
    List.Pairwise (fun c d : Chunk => ∀ x : Nat,
      ¬(c.start ≤ x ∧ x < c.stop ∧ d.start ≤ x ∧ x < d.stop)) (mkChunks n cs) ∧
    (∀ x : Nat, (∃ c ∈ mkChunks n cs, c.start ≤ x ∧ x < c.stop) ↔ x < n) := by
  refine ⟨by simp [mkChunks, numChunks], ?_, ?_, ?_⟩
  · intro c hc
    rw [mem_mkChunks_iff] at hc
    obtain ⟨i, hi, rfl⟩ := hc
    dsimp only
    split
    · omega
    · omega
  · have hp : List.Pairwise (· < ·) (List.range (numChunks n cs)) :=
      List.pairwise_lt_range _
    simp only [mkChunks]
    refine hp.map _ ?_
    intro i j hij x hx
    obtain ⟨hxi1, hxi2, hxj1, hxj2⟩ := hx
    dsimp only at hxi2 hxj1
    have hmul : (i + 1) * cs ≤ j * cs := Nat.mul_le_mul_right cs hij
    have hstep : (i + 1) * cs = i * cs + cs := by rw [Nat.add_mul, one_mul]
    have hstop : (if i * cs + cs > n then n else i * cs + cs) ≤ j * cs := by
      split
      · omega
      · omega
    omega
  · intro x
    constructor
    · rintro ⟨c, hc, hc1, hc2⟩
      exact lt_of_lt_of_le hc2 (mkChunks_stop_le n cs c hc)
    · exact chunk_cover n cs hn hcs x

/-- Witness for `chunks_tile` at `totalSize = 5`, `chunkSize = 2`. -/
theorem chunks_tile_witness :
    (mkChunks 5 2).length = (5 + 2 - 1) / 2 ∧
    (∀ c ∈ mkChunks 5 2, c.stop - c.start ≤ 2) ∧
    List.Pairwise (fun c d : Chunk => ∀ x : Nat,
      ¬(c.start ≤ x ∧ x < c.stop ∧ d.start ≤ x ∧ x < d.stop)) (mkChunks 5 2) ∧
    (∀ x : Nat, (∃ c ∈ mkChunks 5 2, c.start ≤ x ∧ x < c.stop) ↔ x < 5) :=
  chunks_tile 5 2 (by decide) (by decide)

/-- C8: for `totalSize = 45000000` and `chunkSize = 20000000` the generated
chunk list is exactly `[0, 20000000), [20000000, 40000000),
[40000000, 45000000)`. -/
theorem chunks_example_45MB :
    mkChunks 45000000 20000000 =
      [{ start := 0, stop := 20000000 },
       { start := 20000000, stop := 40000000 },
       { start := 40000000, stop := 45000000 }] := by
  decide

/-! ## The chunk fetcher (`downloadChunk`, src/unnamed/part_008)

The destination file (`BufferedFileWriter`) is embedded as a `List Nat` of
bytes; `NewBufferedFileWriter` pre-allocates it to the probed size
(`file.Truncate(size)`), i.e. `List.replicate fileSize 0`.  `WriteAt`
serialises a seek-then-write under a mutex; its net effect on the byte
vector is `writeBytes`.  An HTTP response is its status code and body;
transport-level failures before a response are not modelled (the claims
under study concern status handling and body length). -/

structure HttpResponse where
  status : Nat
  body : List Nat
deriving DecidableEq, Repr

/-- Go: `req.Header.Set("Range", fmt.Sprintf("bytes=%d-%d", start, end-1))`.
Only the Range header of the request is relevant to the claims. -/
structure ChunkRequest where
  rangeHeader : String
deriving DecidableEq, Repr

def mkChunkRequest (start stop : Nat) : ChunkRequest :=
  { rangeHeader := "bytes=" ++ toString start ++ "-" ++ toString (stop - 1) }

/-- Net effect of `writer.WriteAt(buf, off)`: bytes of `buf` replace the file
contents at offsets `off, off+1, ...` (offsets beyond the file length are
dropped, as `List.set` is). -/
def writeBytes : List Nat → Nat → List Nat → List Nat
  | file, _, [] => file
  | file, off, b :: bs => writeBytes (file.set off b) (off + 1) bs

/-- Go, the read/write loop of `downloadChunk`:

```
written := int64(0)
for written < end-start {
    n, err := reader.Read(buffer)
    if n == 0 { break }
    writer.WriteAt(buffer[:n], start+written)
    written += int64(n)
}
return nil
```

Each `reader.Read(buffer)` consumes up to `MemoryBuffer` bytes of the
remaining body; `n == 0` (end of body) breaks the loop *without an error*.
The loop consumes at least one body byte per iteration, so `body.length`
iterations always suffice; the first argument is that structural iteration
bound. -/
def chunkWriteLoopF : Nat → List Nat → List Nat → Nat → Nat → Nat → List Nat
  | 0, _, file, _, _, _ => file
  | fuel + 1, body, file, start, written, target =>
    if written < target ∧ body ≠ [] then
      let n := min MemoryBuffer body.length
      chunkWriteLoopF fuel (body.drop n) (writeBytes file (start + written) (body.take n))
        start (written + n) target
    else file

def chunkWriteLoop (body file : List Nat) (start written target : Nat) : List Nat :=
  chunkWriteLoopF body.length body file start written target

/-- Go: `downloadChunk(url, writer, start, end, bar, buffer)`.  Issues the
ranged request; a status other than 206 (`http.StatusPartialContent`) is an
error returned to the retry loop; otherwise the body is copied into the file
by the read/write loop and `nil` is returned. -/
def attemptChunk (resp : HttpResponse) (file : List Nat) (start stop : Nat) :
    Except String (List Nat) :=
  if resp.status ≠ 206 then .error "unexpected status code"
  else .ok (chunkWriteLoop resp.body file start 0 (stop - start))

/-! ### Properties of `writeBytes` and the write loop -/

lemma writeBytes_length (bs : List Nat) : ∀ (file : List Nat) (off : Nat),
    (writeBytes file off bs).length = file.length := by
  induction bs with
  | nil => intro file off; rfl
  | cons b bs ih =>
    intro file off
    rw [writeBytes, ih, List.length_set]

lemma writeBytes_append (xs ys : List Nat) : ∀ (file : List Nat) (off : Nat),
    writeBytes file off (xs ++ ys) =
      writeBytes (writeBytes file off xs) (off + xs.length) ys := by
  induction xs with
  | nil => intro file off; simp [writeBytes]
  | cons x xs ih =>
    intro file off
    simp only [List.cons_append, writeBytes, List.length_cons, List.append_eq]
    rw [ih, show off + (xs.length + 1) = off + 1 + xs.length from by omega]

lemma writeBytes_getElem_outside (bs : List Nat) : ∀ (file : List Nat) (off k : Nat),
    (k < off ∨ off + bs.length ≤ k) →
    (writeBytes file off bs)[k]? = file[k]? := by
  induction bs with
  | nil => intro file off k _; rfl
  | cons b bs ih =>
    intro file off k hk
    simp only [List.length_cons] at hk
    rw [writeBytes, ih _ _ _ (by omega)]
    exact List.getElem?_set_ne (by omega)

lemma writeBytes_getElem_inside (bs : List Nat) : ∀ (file : List Nat) (off k : Nat),
    (hk : k < bs.length) → off + bs.length ≤ file.length →
    (writeBytes file off bs)[off + k]? = some bs[k] := by
  induction bs with
  | nil =>
    intro file off k hk
    exact absurd hk (by simp)
  | cons b bs ih =>
    intro file off k hk hlen
    simp only [List.length_cons] at hlen
    match k with
    | 0 =>
      rw [writeBytes, writeBytes_getElem_outside bs _ _ _ (by omega)]
      simp only [Nat.add_zero]
      rw [List.getElem?_set_self (by omega)]
      rfl
    | k + 1 =>
      rw [writeBytes]
      have := ih (file.set off b) (off + 1) k (by simpa using hk)
        (by rw [List.length_set]; omega)
      rw [show off + (k + 1) = off + 1 + k by omega]
      simpa using this

lemma chunkWriteLoopF_eq_writeBytes (fuel : Nat) : ∀ (body file : List Nat)
    (start written target : Nat), body.length ≤ fuel →
    written + body.length ≤ target →
    chunkWriteLoopF fuel body file start written target =
      writeBytes file (start + written) body := by
  induction fuel with
  | zero =>
    intro body file start written target hfuel _
    have : body = [] := List.length_eq_zero.mp (by omega)
    subst this
    rfl
  | succ fuel ih =>
    intro body file start written target hfuel hfit
    match body with
    | [] =>
      rw [chunkWriteLoopF, if_neg (by simp)]
      rfl
    | b :: bs =>
      simp only [List.length_cons] at hfuel hfit
      rw [chunkWriteLoopF]
      have hwr : written < target := by omega
      rw [if_pos ⟨hwr, by simp⟩]
      have hm1 : 1 ≤ min MemoryBuffer (b :: bs : List Nat).length :=
        Nat.le_min.mpr ⟨by norm_num [MemoryBuffer], by simp⟩
      have hmle : min MemoryBuffer (b :: bs : List Nat).length ≤
          (b :: bs : List Nat).length := Nat.min_le_right _ _
      have hlb : (b :: bs : List Nat).length = bs.length + 1 := by simp
      have htk : (List.take (min MemoryBuffer (b :: bs : List Nat).length) (b :: bs)).length =
          min MemoryBuffer (b :: bs : List Nat).length := by
        rw [List.length_take]
        omega
      have hdp : (List.drop (min MemoryBuffer (b :: bs : List Nat).length) (b :: bs)).length =
          bs.length + 1 - min MemoryBuffer (b :: bs : List Nat).length := by
        rw [List.length_drop]
        omega
      rw [ih _ _ _ _ _ (by omega) (by omega)]
      conv_rhs => rw [← List.take_append_drop (min MemoryBuffer (b :: bs : List Nat).length)
        (b :: bs), writeBytes_append]
      rw [htk]
      congr 1
      omega

lemma chunkWriteLoop_eq_writeBytes (body file : List Nat) (start target : Nat)
    (hfit : body.length ≤ target) :
    chunkWriteLoop body file start 0 target = writeBytes file start body := by
  have := chunkWriteLoopF_eq_writeBytes body.length body file start 0 target
    (le_refl _) (by omega)
  simpa [chunkWriteLoop] using this

/-! ## C2: the ranged-fetch contract of `downloadChunk` -/

/-- C2, corrected.  The ranged request carries the header
`bytes=<start>-<end-1>`, and any response status other than 206 (partial
content) is an error handed back to the retry loop; but, contrary to the
claim, a body shorter than `stop - start` bytes is *not* detected: the read
loop breaks at end-of-body (`n == 0`) and `downloadChunk` returns success
with only the received bytes written. -/
theorem chunk_fetcher_contract :
    (∀ start stop : Nat, (mkChunkRequest start stop).rangeHeader =
      "bytes=" ++ toString start ++ "-" ++ toString (stop - 1)) ∧
    (∀ (resp : HttpResponse) (file : List Nat) (start stop : Nat),
      resp.status ≠ 206 →
      attemptChunk resp file start stop = .error "unexpected status code") ∧
    (∀ (resp : HttpResponse) (file : List Nat) (start stop : Nat),
      resp.status = 206 → resp.body.length ≤ stop - start →
      attemptChunk resp file start stop = .ok (writeBytes file start resp.body)) := by
  refine ⟨fun start stop => rfl, ?_, ?_⟩
  · intro resp file start stop h
    simp [attemptChunk, h]
  · intro resp file start stop h hfit
    simp [attemptChunk, h, chunkWriteLoop_eq_writeBytes resp.body file start (stop - start) hfit]

/-- Witness for `chunk_fetcher_contract`: a 404 response is an error, and a
206 response whose body holds 1 byte of the requested 2 is a success. -/
theorem chunk_fetcher_contract_witness :
    attemptChunk { status := 404, body := [] } [0, 0] 0 2 = .error "unexpected status code" ∧
    attemptChunk { status := 206, body := [7] } [0, 0] 0 2 = .ok [7, 0] := by
  constructor
  · exact chunk_fetcher_contract.2.1 { status := 404, body := [] } [0, 0] 0 2 (by decide)
  · have := chunk_fetcher_contract.2.2 { status := 206, body := [7] } [0, 0] 0 2
      (by decide) (by decide)
    rw [this]
    rfl

/-- C2, counterexample to the claim as stated: a 206 response whose body is
one byte short of the requested range makes `downloadChunk` return success
(`nil`), not a retryable error. -/
theorem chunk_short_read_succeeds :
    attemptChunk { status := 206, body := [7] } [0, 0] 0 2 = .ok [7, 0] := by
  rfl

/-! ## The chunk retry loop (`downloadWithChunks`, src/unnamed/part_008)

Go, one fetch task:

```
var lastErr error
for retry := 0; retry < MaxRetries; retry++ {
    if err := c.downloadChunk(url, writer, start, end, bar, buffer); err != nil {
        lastErr = err
        time.Sleep(time.Second)
        continue
    }
    lastErr = nil
    break
}
if lastErr != nil { errors <- ... }
```

`fetch a` is the response the network yields on attempt `a` (0-based).
The model returns the final `lastErr`, the file contents, and the list of
sleeps performed (in milliseconds), in order. -/

def retryChunkAux (fetch : Nat → HttpResponse) (start stop : Nat) :
    Nat → List Nat → Option String → List Nat → Option String × List Nat × List Nat
  | 0, file, lastErr, delays => (lastErr, file, delays.reverse)
  | r + 1, file, _, delays =>
    match attemptChunk (fetch (MaxRetries - (r + 1))) file start stop with
    | .error e => retryChunkAux fetch start stop r file (some e) (1000 :: delays)
    | .ok file2 => (none, file2, delays.reverse)

def retryChunk (fetch : Nat → HttpResponse) (file : List Nat) (start stop : Nat) :
    Option String × List Nat × List Nat :=
  retryChunkAux fetch start stop MaxRetries file none []

/-- Case-by-case closed form of the three-attempt retry loop. -/
lemma retryChunk_char (fetch : Nat → HttpResponse) (file : List Nat) (start stop : Nat) :
    retryChunk fetch file start stop =
      if (fetch 0).status = 206 then
        (none, chunkWriteLoop (fetch 0).body file start 0 (stop - start), [])
      else if (fetch 1).status = 206 then
        (none, chunkWriteLoop (fetch 1).body file start 0 (stop - start), [1000])
      else if (fetch 2).status = 206 then
        (none, chunkWriteLoop (fetch 2).body file start 0 (stop - start), [1000, 1000])
      else
        (some "unexpected status code", file, [1000, 1000, 1000]) := by
  by_cases h0 : (fetch 0).status = 206 <;>
    by_cases h1 : (fetch 1).status = 206 <;>
      by_cases h2 : (fetch 2).status = 206 <;>
        simp [retryChunk, retryChunkAux, MaxRetries, attemptChunk, h0, h1, h2]

/-- C5, corrected.  Each chunk is attempted at most `MaxRetries = 3` times;
exhaustion (a reported error) happens exactly when all three attempts fail,
in which case exactly three attempts were made; but the delay after each
failed attempt is the constant `time.Sleep(time.Second)` (1000 ms), not a
delay growing with the attempt index. -/
theorem chunk_retry_bounded_constant_delay (fetch : Nat → HttpResponse)
    (file : List Nat) (start stop : Nat) :
    (retryChunk fetch file start stop).2.2.length ≤ MaxRetries ∧
    (∀ d ∈ (retryChunk fetch file start stop).2.2, d = 1000) ∧
    ((retryChunk fetch file start stop).1.isSome →
      (retryChunk fetch file start stop).2.2 = List.replicate MaxRetries 1000) := by
  rw [retryChunk_char]
  by_cases h0 : (fetch 0).status = 206 <;>
    by_cases h1 : (fetch 1).status = 206 <;>
      by_cases h2 : (fetch 2).status = 206 <;>
        simp [h0, h1, h2, MaxRetries, List.replicate]

/-- Witness for `chunk_retry_bounded_constant_delay` at an always-failing
fetch: three sleeps of 1000 ms each. -/
theorem chunk_retry_witness :
    (retryChunk (fun _ => { status := 404, body := [] }) [0, 0] 0 2).2.2.length ≤ MaxRetries ∧
    (∀ d ∈ (retryChunk (fun _ => { status := 404, body := [] }) [0, 0] 0 2).2.2, d = 1000) ∧
    ((retryChunk (fun _ => { status := 404, body := [] }) [0, 0] 0 2).1.isSome →
      (retryChunk (fun _ => { status := 404, body := [] }) [0, 0] 0 2).2.2 =
        List.replicate MaxRetries 1000) :=
  chunk_retry_bounded_constant_delay (fun _ => { status := 404, body := [] }) [0, 0] 0 2

/-- C5, counterexample to the claim as stated: with a fetch that fails every
attempt, the sleeps are `[1000, 1000, 1000]` — a constant sequence, not one
increasing with the attempt index. -/
theorem chunk_retry_delay_not_linear :
    (retryChunk (fun _ => { status := 500, body := [] }) [0] 0 1).2.2 = [1000, 1000, 1000] ∧
    ¬ List.Pairwise (· < ·)
        (retryChunk (fun _ => { status := 500, body := [] }) [0] 0 1).2.2 := by
  constructor
  · rfl
  · intro h
    rw [show (retryChunk (fun _ => { status := 500, body := [] }) [0] 0 1).2.2 =
      [1000, 1000, 1000] from rfl] at h
    simp at h

/-! ## The whole-transfer run (`downloadWithChunks`, src/unnamed/part_008)

The goroutine pool writes disjoint ranges of one file and collects per-chunk
errors in a channel; since the written ranges are pairwise disjoint, the
final file contents and the set of collected errors are independent of the
interleaving, so the run is embedded as a left-to-right fold over the chunk
list.  `oracle i a` is the response the network yields for chunk `i` on
attempt `a`. -/

def runChunksAux (oracle : Nat → Nat → HttpResponse) :
    List Chunk → Nat → List Nat → List Nat × List String
  | [], _, file => (file, [])
  | c :: rest, i, file =>
    let r := retryChunk (oracle i) file c.start c.stop
    let t := runChunksAux oracle rest (i + 1) r.2.1
    match r.1 with
    | some e => (t.1, ("chunk " ++ toString i ++ " failed after 3 retries: " ++ e) :: t.2)
    | none => t

/-- Go `downloadWithChunks` after the probe: pre-allocate the file to
`fileSize` (`file.Truncate(size)` in `NewBufferedFileWriter`), generate the
chunks, run the fetch tasks, and collect the errors.  The returned pair is
(final file contents, collected chunk errors); the Go function returns a
non-nil error exactly when the error list is non-empty, and never deletes or
truncates the file. -/
def downloadWithChunksRun (oracle : Nat → Nat → HttpResponse) (fileSize chunkSize : Nat) :
    List Nat × List String :=
  runChunksAux oracle (mkChunks fileSize chunkSize) 0 (List.replicate fileSize 0)

/-- Which attempt of the three first returns partial content, and with what
body: the retry loop of one chunk succeeds with exactly this body (`none`
when every attempt fails). -/
def chunkSuccessBody (fetch : Nat → HttpResponse) : Option (List Nat) :=
  if (fetch 0).status = 206 then some (fetch 0).body
  else if (fetch 1).status = 206 then some (fetch 1).body
  else if (fetch 2).status = 206 then some (fetch 2).body
  else none

lemma chunkWriteLoopF_length (fuel : Nat) : ∀ (body file : List Nat) (start written target : Nat),
    (chunkWriteLoopF fuel body file start written target).length = file.length := by
  induction fuel with
  | zero => intro body file start written target; rfl
  | succ fuel ih =>
    intro body file start written target
    rw [chunkWriteLoopF]
    split
    · rw [ih, writeBytes_length]
    · rfl

lemma retryChunk_file_length (fetch : Nat → HttpResponse) (file : List Nat) (start stop : Nat) :
    (retryChunk fetch file start stop).2.1.length = file.length := by
  rw [retryChunk_char]
  split
  · exact chunkWriteLoopF_length _ _ _ _ _ _
  split
  · exact chunkWriteLoopF_length _ _ _ _ _ _
  split
  · exact chunkWriteLoopF_length _ _ _ _ _ _
  · rfl

lemma retryChunk_of_success (fetch : Nat → HttpResponse) (file : List Nat) (start stop : Nat)
    (b : List Nat) (hb : chunkSuccessBody fetch = some b)
    (hfit : ∀ a < MaxRetries, (fetch a).body.length ≤ stop - start) :
    (retryChunk fetch file start stop).1 = none ∧
    (retryChunk fetch file start stop).2.1 = writeBytes file start b := by
  rw [retryChunk_char]
  unfold chunkSuccessBody at hb
  by_cases h0 : (fetch 0).status = 206
  · rw [if_pos h0] at hb ⊢
    injection hb with hb
    subst hb
    exact ⟨rfl, chunkWriteLoop_eq_writeBytes _ _ _ _ (hfit 0 (by norm_num [MaxRetries]))⟩
  · rw [if_neg h0] at hb ⊢
    by_cases h1 : (fetch 1).status = 206
    · rw [if_pos h1] at hb ⊢
      injection hb with hb
      subst hb
      exact ⟨rfl, chunkWriteLoop_eq_writeBytes _ _ _ _ (hfit 1 (by norm_num [MaxRetries]))⟩
    · rw [if_neg h1] at hb ⊢
      by_cases h2 : (fetch 2).status = 206
      · rw [if_pos h2] at hb ⊢
        injection hb with hb
        subst hb
        exact ⟨rfl, chunkWriteLoop_eq_writeBytes _ _ _ _ (hfit 2 (by norm_num [MaxRetries]))⟩
      · rw [if_neg h2] at hb
        exact absurd hb (by simp)

lemma retryChunk_of_fail (fetch : Nat → HttpResponse) (file : List Nat) (start stop : Nat)
    (hb : chunkSuccessBody fetch = none) :
    (retryChunk fetch file start stop).1 = some "unexpected status code" ∧
    (retryChunk fetch file start stop).2.1 = file := by
  unfold chunkSuccessBody at hb
  rw [retryChunk_char]
  by_cases h0 : (fetch 0).status = 206
  · rw [if_pos h0] at hb
    exact absurd hb (by simp)
  · rw [if_neg h0] at hb
    rw [if_neg h0]
    by_cases h1 : (fetch 1).status = 206
    · rw [if_pos h1] at hb
      exact absurd hb (by simp)
    · rw [if_neg h1] at hb
      rw [if_neg h1]
      by_cases h2 : (fetch 2).status = 206
      · rw [if_pos h2] at hb
        exact absurd hb (by simp)
      · rw [if_neg h2]
        exact ⟨rfl, rfl⟩

lemma chunkSuccessBody_of_allFail (fetch : Nat → HttpResponse)
    (h : ∀ a < MaxRetries, (fetch a).status ≠ 206) : chunkSuccessBody fetch = none := by
  unfold chunkSuccessBody
  rw [if_neg (h 0 (by norm_num [MaxRetries])), if_neg (h 1 (by norm_num [MaxRetries])),
    if_neg (h 2 (by norm_num [MaxRetries]))]

lemma runChunksAux_length (oracle : Nat → Nat → HttpResponse) (L : List Chunk) :
    ∀ (i0 : Nat) (file : List Nat),
    (runChunksAux oracle L i0 file).1.length = file.length := by
  induction L with
  | nil => intro i0 file; rfl
  | cons c rest ih =>
    intro i0 file
    simp only [runChunksAux]
    cases hr : (retryChunk (oracle i0) file c.start c.stop).1 with
    | none =>
      simp only [hr]
      rw [ih, retryChunk_file_length]
    | some e =>
      simp only [hr]
      show (runChunksAux oracle rest (i0 + 1)
        (retryChunk (oracle i0) file c.start c.stop).2.1).1.length = file.length
      rw [ih, retryChunk_file_length]

lemma chunkSuccessBody_length_le (fetch : Nat → HttpResponse) (b : List Nat) (t : Nat)
    (hb : chunkSuccessBody fetch = some b)
    (hfit : ∀ a < MaxRetries, (fetch a).body.length ≤ t) : b.length ≤ t := by
  unfold chunkSuccessBody at hb
  split_ifs at hb with h0 h1 h2
  · injection hb with hb
    subst hb
    exact hfit 0 (by norm_num [MaxRetries])
  · injection hb with hb
    subst hb
    exact hfit 1 (by norm_num [MaxRetries])
  · injection hb with hb
    subst hb
    exact hfit 2 (by norm_num [MaxRetries])

lemma runChunksAux_err (oracle : Nat → Nat → HttpResponse) (L : List Chunk) :
    ∀ (i0 : Nat) (file : List Nat) (p : Nat), p < L.length →
    (∀ a < MaxRetries, (oracle (i0 + p) a).status ≠ 206) →
    (runChunksAux oracle L i0 file).2 ≠ [] := by
  induction L with
  | nil =>
    intro i0 file p hp
    exact absurd hp (by simp)
  | cons c rest ih =>
    intro i0 file p hp hfail
    simp only [runChunksAux]
    cases p with
    | zero =>
      have hb := chunkSuccessBody_of_allFail (oracle i0) (by simpa using hfail)
      have hr := (retryChunk_of_fail (oracle i0) file c.start c.stop hb).1
      simp [hr]
    | succ q =>
      cases hr : (retryChunk (oracle i0) file c.start c.stop).1 with
      | none =>
        simp only [hr]
        refine ih (i0 + 1) _ q (by simpa using hp) ?_
        intro a ha
        rw [show i0 + 1 + q = i0 + (q + 1) from by omega]
        exact hfail a ha
      | some e =>
        simp [hr]

lemma runChunksAux_frame (oracle : Nat → Nat → HttpResponse) (L : List Chunk) :
    ∀ (i0 : Nat) (file : List Nat) (m : Nat),
    (∀ p, (hp : p < L.length) → ∀ a < MaxRetries,
      (oracle (i0 + p) a).body.length ≤ L[p].stop - L[p].start) →
    (∀ c ∈ L, m ≤ c.start) →
    ∀ k < m, (runChunksAux oracle L i0 file).1[k]? = file[k]? := by
  induction L with
  | nil => intro i0 file m _ _ k _; rfl
  | cons c rest ih =>
    intro i0 file m hfit hge k hk
    simp only [runChunksAux]
    have hcfit : ∀ a < MaxRetries, (oracle i0 a).body.length ≤ c.stop - c.start := by
      have := hfit 0 (by simp)
      simpa using this
    have hfile : (retryChunk (oracle i0) file c.start c.stop).2.1[k]? = file[k]? := by
      cases hb : chunkSuccessBody (oracle i0) with
      | some b =>
        rw [(retryChunk_of_success (oracle i0) file c.start c.stop b hb hcfit).2]
        refine writeBytes_getElem_outside b file c.start k (Or.inl ?_)
        have := hge c (by simp)
        omega
      | none =>
        rw [(retryChunk_of_fail (oracle i0) file c.start c.stop hb).2]
    have hshift : ∀ p, (hp : p < rest.length) → ∀ a < MaxRetries,
        (oracle (i0 + 1 + p) a).body.length ≤ rest[p].stop - rest[p].start := by
      intro p hp a ha
      have := hfit (p + 1) (by simpa using Nat.succ_lt_succ hp) a ha
      rw [show i0 + 1 + p = i0 + (p + 1) from by omega]
      simpa using this
    have htail : ∀ f2 : List Nat, (runChunksAux oracle rest (i0 + 1) f2).1[k]? = f2[k]? :=
      fun f2 => ih (i0 + 1) f2 m hshift (fun d hd => hge d (by simp [hd])) k hk
    cases hr : (retryChunk (oracle i0) file c.start c.stop).1 with
    | none =>
      simp only [hr]
      rw [htail _, hfile]
    | some e =>
      simp only [hr]
      show (runChunksAux oracle rest (i0 + 1)
        (retryChunk (oracle i0) file c.start c.stop).2.1).1[k]? = file[k]?
      rw [htail _, hfile]

lemma runChunksAux_success (oracle : Nat → Nat → HttpResponse) (L : List Chunk) :
    ∀ (i0 : Nat) (file : List Nat),
    List.Pairwise (fun c d => c.stop ≤ d.start) L →
    (∀ p, (hp : p < L.length) → ∀ a < MaxRetries,
      (oracle (i0 + p) a).body.length ≤ L[p].stop - L[p].start) →
    (∀ c ∈ L, c.stop ≤ file.length) →
    ∀ p, (hp : p < L.length) → ∀ b, chunkSuccessBody (oracle (i0 + p)) = some b →
    ∀ k, (hk : k < b.length) →
    (runChunksAux oracle L i0 file).1[L[p].start + k]? = some b[k] := by
  induction L with
  | nil =>
    intro i0 file _ _ _ p hp
    exact absurd hp (by simp)
  | cons c rest ih =>
    intro i0 file hpw hfit hstop p hp b hb k hk
    simp only [runChunksAux]
    have hcfit : ∀ a < MaxRetries, (oracle i0 a).body.length ≤ c.stop - c.start := by
      have := hfit 0 (by simp)
      simpa using this
    have hshift : ∀ p, (hp : p < rest.length) → ∀ a < MaxRetries,
        (oracle (i0 + 1 + p) a).body.length ≤ rest[p].stop - rest[p].start := by
      intro q hq a ha
      have := hfit (q + 1) (by simpa using Nat.succ_lt_succ hq) a ha
      rw [show i0 + 1 + q = i0 + (q + 1) from by omega]
      simpa using this
    cases p with
    | zero =>
      have hb0 : chunkSuccessBody (oracle i0) = some b := by simpa using hb
      have hsucc := retryChunk_of_success (oracle i0) file c.start c.stop b hb0 hcfit
      have hblen : b.length ≤ c.stop - c.start :=
        chunkSuccessBody_length_le (oracle i0) b _ hb0 hcfit
      have hcstop : c.stop ≤ file.length := hstop c (by simp)
      simp only [hsucc.1, List.getElem_cons_zero]
      have hge : ∀ d ∈ rest, c.stop ≤ d.start := (List.pairwise_cons.mp hpw).1
      have hfr := runChunksAux_frame oracle rest (i0 + 1)
        ((retryChunk (oracle i0) file c.start c.stop).2.1) c.stop hshift hge
        (c.start + k) (by omega)
      rw [hfr, hsucc.2]
      exact writeBytes_getElem_inside b file c.start k hk (by omega)
    | succ q =>
      have hq : q < rest.length := by simpa using hp
      have hbq : chunkSuccessBody (oracle (i0 + 1 + q)) = some b := by
        rw [show i0 + 1 + q = i0 + (q + 1) from by omega]
        exact hb
      have hlen : (retryChunk (oracle i0) file c.start c.stop).2.1.length = file.length :=
        retryChunk_file_length _ _ _ _
      have hIH := ih (i0 + 1) ((retryChunk (oracle i0) file c.start c.stop).2.1)
        (List.pairwise_cons.mp hpw).2 hshift
        (fun d hd => by rw [hlen]; exact hstop d (by simp [hd]))
        q (by simpa using hp) b hbq k hk
      cases hr : (retryChunk (oracle i0) file c.start c.stop).1 with
      | none =>
        simp only [hr, List.getElem_cons_succ]
        exact hIH
      | some e =>
        simp only [hr, List.getElem_cons_succ]
        show (runChunksAux oracle rest (i0 + 1)
          (retryChunk (oracle i0) file c.start c.stop).2.1).1[rest[q].start + k]? = some b[k]
        exact hIH

lemma mkChunks_pairwise (n cs : Nat) :
    List.Pairwise (fun c d : Chunk => c.stop ≤ d.start) (mkChunks n cs) := by
  have hp : List.Pairwise (· < ·) (List.range (numChunks n cs)) :=
    List.pairwise_lt_range _
  simp only [mkChunks]
  refine hp.map _ ?_
  intro i j hij
  dsimp only
  have hmul : (i + 1) * cs ≤ j * cs := Nat.mul_le_mul_right cs hij
  have hstep : (i + 1) * cs = i * cs + cs := by rw [Nat.add_mul, one_mul]
  split
  · omega
  · omega

/-- C4: if at least one chunk of a transfer exhausts all its retries, the
whole transfer returns an error (`downloadWithChunks` returns the collected
chunk errors, which are non-empty), and the partially-written destination
file is not deleted or truncated — it still has length `totalSize`, and at
the range of every chunk whose fetch succeeded the fetched bytes are on
disk.  The body-length hypothesis states that each response carries at most
the requested `stop - start` bytes (a server honouring the Range header). -/
theorem transfer_failure_keeps_partial_bytes (oracle : Nat → Nat → HttpResponse)
    (n cs : Nat)
    (hfit : ∀ p, (hp : p < (mkChunks n cs).length) → ∀ a < MaxRetries,
      (oracle p a).body.length ≤ (mkChunks n cs)[p].stop - (mkChunks n cs)[p].start)
    (hfail : ∃ j < (mkChunks n cs).length, ∀ a < MaxRetries, (oracle j a).status ≠ 206) :
    (downloadWithChunksRun oracle n cs).2 ≠ [] ∧
    (downloadWithChunksRun oracle n cs).1.length = n ∧
    ∀ p, (hp : p < (mkChunks n cs).length) → ∀ b, chunkSuccessBody (oracle p) = some b →
      ∀ k, (hk : k < b.length) →
        (downloadWithChunksRun oracle n cs).1[(mkChunks n cs)[p].start + k]? = some b[k] := by
  obtain ⟨j, hj, hjf⟩ := hfail
  refine ⟨?_, ?_, ?_⟩
  · exact runChunksAux_err oracle (mkChunks n cs) 0 _ j hj (by simpa using hjf)
  · rw [downloadWithChunksRun, runChunksAux_length, List.length_replicate]
  · intro p hp b hb k hk
    refine runChunksAux_success oracle (mkChunks n cs) 0 _ (mkChunks_pairwise n cs)
      (by simpa using hfit)
      (fun c hc => by rw [List.length_replicate]; exact mkChunks_stop_le n cs c hc)
      p hp b (by simpa using hb) k hk

/-- Witness for `transfer_failure_keeps_partial_bytes`: a 3-byte transfer in
2-byte chunks where chunk 0 exhausts its retries and chunk 1 succeeds with
byte 9; the error list is non-empty, the file keeps length 3, and byte 9
stays at offset 2. -/
theorem transfer_failure_witness :
    (downloadWithChunksRun
        (fun i _ => if i = 0 then { status := 404, body := [] }
          else { status := 206, body := [9] }) 3 2).2 ≠ [] ∧
    (downloadWithChunksRun
        (fun i _ => if i = 0 then { status := 404, body := [] }
          else { status := 206, body := [9] }) 3 2).1.length = 3 ∧
    ∀ p, (hp : p < (mkChunks 3 2).length) → ∀ b,
      chunkSuccessBody ((fun i _ => if i = 0 then { status := 404, body := [] }
        else { status := 206, body := [9] } : Nat → Nat → HttpResponse) p) = some b →
      ∀ k, (hk : k < b.length) →
        (downloadWithChunksRun
          (fun i _ => if i = 0 then { status := 404, body := [] }
            else { status := 206, body := [9] }) 3 2).1[(mkChunks 3 2)[p].start + k]? =
          some b[k] :=
  transfer_failure_keeps_partial_bytes
    (fun i _ => if i = 0 then { status := 404, body := [] }
      else { status := 206, body := [9] }) 3 2
    (by decide) (by decide)

/-! ## C9: bounded chunk concurrency (src/unnamed/part_008)

Go, inside `downloadWithChunks`:

```
limiter := make(chan struct{}, MaxChunkWorkers)
...
go func(...) {
    limiter <- struct{}{}        // Acquire semaphore
    defer func() { <-limiter }() // Release semaphore
    ... // chunk fetch
}(...)
```

A send on a buffered channel of capacity `MaxChunkWorkers` blocks while the
channel holds `MaxChunkWorkers` tokens, so the channel is a counting
semaphore.  The goroutine pool is embedded as a transition system: a state
counts the goroutines not yet holding a token, the fetches in flight
(holding a token), and the finished fetches; an acquire step is enabled
only when the channel is not full. -/

structure PoolState where
  pending : Nat
  inFlight : Nat
  finished : Nat
deriving DecidableEq, Repr

inductive PoolStep : PoolState → PoolState → Prop
  | acquire (s : PoolState) (hp : 0 < s.pending) (hcap : s.inFlight < MaxChunkWorkers) :
      PoolStep s { pending := s.pending - 1, inFlight := s.inFlight + 1, finished := s.finished }
  | release (s : PoolState) (hf : 0 < s.inFlight) :
      PoolStep s { pending := s.pending, inFlight := s.inFlight - 1, finished := s.finished + 1 }

/-- States reachable from dispatching `numChunks` goroutines, none yet
holding a semaphore token. -/
inductive PoolReachable (numTasks : Nat) : PoolState → Prop
  | init : PoolReachable numTasks { pending := numTasks, inFlight := 0, finished := 0 }
  | step {s t : PoolState} : PoolReachable numTasks s → PoolStep s t → PoolReachable numTasks t

/-- C9: during one item's chunked transfer, at no point are more than
`MaxChunkWorkers = 15` chunk fetches in flight: in every state reachable
from the initial dispatch, the number of goroutines holding a semaphore
token is at most `MaxChunkWorkers`. -/
theorem chunk_concurrency_bounded (numTasks : Nat) (s : PoolState)
    (hs : PoolReachable numTasks s) : s.inFlight ≤ MaxChunkWorkers := by
  induction hs with
  | init => simp [MaxChunkWorkers]
  | step _ hstep ih =>
    cases hstep with
    | acquire hp hcap => simpa using hcap
    | release hf => simp; omega

/-- Witness for `chunk_concurrency_bounded`: the initial state with 40
dispatched fetch tasks is reachable and respects the bound. -/
theorem chunk_concurrency_bounded_witness :
    PoolReachable 40 { pending := 40, inFlight := 0, finished := 0 } ∧
    ({ pending := 40, inFlight := 0, finished := 0 } : PoolState).inFlight ≤ MaxChunkWorkers :=
  ⟨PoolReachable.init,
   chunk_concurrency_bounded 40 { pending := 40, inFlight := 0, finished := 0 }
     PoolReachable.init⟩

/-! ## The durable state store (`cache` package, src/unnamed/part_007)

The cache lives under three subdirectories, `series`, `downloads` and
`state`; the file system visible to it is embedded as a map from
(subdirectory, file name) to an optional file content.  A file name is a
`List Char` (Go builds it with single-character `strings.ReplaceAll`
replacements, which act characterwise).  A file content is either a fully
written, parseable serialized `CacheEntry` (data plus write timestamp), or
the remains of an interrupted write, which fails to parse. -/

inductive Subdir
  | series
  | downloads
  | state
deriving DecidableEq, Repr

structure CacheEntry (α : Type) where
  data : α
  timestamp : Int
deriving DecidableEq, Repr

inductive FileContent (α : Type)
  | entry (e : CacheEntry α)
  | truncated (raw : List Char)
deriving DecidableEq, Repr

def Fs (α : Type) : Type := Subdir → List Char → Option (FileContent α)

def fsEmpty {α : Type} : Fs α := fun _ _ => none

/-- Go `os.WriteFile path data`: creates or replaces the file. -/
def fsWrite {α : Type} (fs : Fs α) (sd : Subdir) (name : List Char) (c : FileContent α) :
    Fs α :=
  fun sd2 name2 => if sd2 = sd ∧ name2 = name then some c else fs sd2 name2

def fsRemove {α : Type} (fs : Fs α) (sd : Subdir) (name : List Char) : Fs α :=
  fun sd2 name2 => if sd2 = sd ∧ name2 = name then none else fs sd2 name2

/-- Go `os.Rename src dst` within one directory: atomic replacement of `dst`
by `src` (a no-op here when `src` is absent; the Go error path then removes
the temp file and reports an error, leaving `dst` untouched either way). -/
def fsRename {α : Type} (fs : Fs α) (sd : Subdir) (src dst : List Char) : Fs α :=
  match fs sd src with
  | none => fs
  | some c => fsWrite (fsRemove fs sd src) sd dst c

/-- Go, `Cache.Set`:
`key = strings.ReplaceAll(key, "/", "_"); key = strings.ReplaceAll(key, "\\", "_")`.
Both patterns are single characters, so the two passes act as one
characterwise map. -/
def sanitizeChar (c : Char) : Char :=
  if c = '/' ∨ c = '\\' then '_' else c

def sanitizeKey (key : List Char) : List Char :=
  key.map sanitizeChar

def jsonExt : List Char := ".json".toList

def tmpExt : List Char := ".tmp".toList

/-- Go, `Cache.Set`: `series_`-prefixed keys go to `series/`,
`download_`-prefixed keys to `downloads/`, everything else to `state/`. -/
def routeSubdir (key : List Char) : Subdir :=
  if "series_".toList.isPrefixOf key then .series
  else if "download_".toList.isPrefixOf key then .downloads
  else .state

/-- The stages at which `Cache.Set` can be interrupted: before anything is
written, mid-write of the temporary file (leaving interrupted bytes `raw`),
after the temporary file is complete, and after the atomic rename. -/
inductive SetStage
  | before
  | tmpInterrupted
  | tmpWritten
  | renamed
deriving DecidableEq, Repr

/-- Go, `Cache.Set`, as far as stage `st`:

```
key = <sanitized>; subdir = <routed>
filePath = subdir/key.json
entry = CacheEntry{Data: data, Timestamp: time.Now()}
tmpFile = filePath + ".tmp"
os.WriteFile(tmpFile, jsonData, 0644)
os.Rename(tmpFile, filePath)
```
-/
def cacheSetAt {α : Type} (fs : Fs α) (key : List Char) (v : α) (now : Int)
    (st : SetStage) (raw : List Char) : Fs α :=
  match st with
  | .before => fs
  | .tmpInterrupted =>
    fsWrite fs (routeSubdir (sanitizeKey key)) (sanitizeKey key ++ jsonExt ++ tmpExt)
      (.truncated raw)
  | .tmpWritten =>
    fsWrite fs (routeSubdir (sanitizeKey key)) (sanitizeKey key ++ jsonExt ++ tmpExt)
      (.entry { data := v, timestamp := now })
  | .renamed =>
    fsRename
      (fsWrite fs (routeSubdir (sanitizeKey key)) (sanitizeKey key ++ jsonExt ++ tmpExt)
        (.entry { data := v, timestamp := now }))
      (routeSubdir (sanitizeKey key)) (sanitizeKey key ++ jsonExt ++ tmpExt)
      (sanitizeKey key ++ jsonExt)

/-- A completed `Cache.Set`. -/
def cacheSet {α : Type} (fs : Fs α) (key : List Char) (v : α) (now : Int) : Fs α :=
  cacheSetAt fs key v now .renamed []

/-- Go, `Cache.Get`/`Cache.IsStale` probe: the subdirectories are scanned in
the order `series`, `downloads`, `state` for `key + ".json"` (with the *raw*
key) and the first file found is read. -/
def cacheProbe {α : Type} (fs : Fs α) (key : List Char) : Option (FileContent α) :=
  match fs .series (key ++ jsonExt) with
  | some c => some c
  | none =>
    match fs .downloads (key ++ jsonExt) with
    | some c => some c
    | none => fs .state (key ++ jsonExt)

/-- The parsed entry the probe yields, if any: `none` when the key's file is
absent or its content does not parse. -/
def probeEntry {α : Type} (fs : Fs α) (key : List Char) : Option (CacheEntry α) :=
  match cacheProbe fs key with
  | some (.entry e) => some e
  | _ => none

/-- Go, `Cache.IsStale`: `true` when the file is absent, unreadable or
unparsable, else `time.Since(entry.Timestamp) > maxAge`.  Times are in
milliseconds here; only their differences matter. -/
def cacheIsStale {α : Type} (fs : Fs α) (key : List Char) (now maxAge : Int) : Bool :=
  match cacheProbe fs key with
  | none => true
  | some (.truncated _) => true
  | some (.entry e) => decide (now - e.timestamp > maxAge)

inductive GetResult (α : Type)
  | notFound
  | readError
  | found (v : α)
deriving DecidableEq, Repr

/-- Go, `Cache.Get`: `(false, nil)` when no subdirectory has the file,
`(false, err)` when it cannot be read or parsed, else the entry's data
(marshalled and unmarshalled into the caller's value — the identity on the
modelled data). -/
def cacheGet {α : Type} (fs : Fs α) (key : List Char) : GetResult α :=
  match cacheProbe fs key with
  | none => .notFound
  | some (.truncated _) => .readError
  | some (.entry e) => .found e.data

/-! ### Lookup lemmas for the file-system model -/

lemma fsWrite_self {α : Type} (fs : Fs α) (sd : Subdir) (name : List Char)
    (c : FileContent α) : fsWrite fs sd name c sd name = some c := by
  simp [fsWrite]

lemma fsWrite_ne {α : Type} (fs : Fs α) (sd : Subdir) (name : List Char)
    (c : FileContent α) (sd2 : Subdir) (name2 : List Char)
    (h : ¬(sd2 = sd ∧ name2 = name)) : fsWrite fs sd name c sd2 name2 = fs sd2 name2 := by
  simp only [fsWrite, if_neg h]

lemma fsRemove_ne {α : Type} (fs : Fs α) (sd : Subdir) (name : List Char)
    (sd2 : Subdir) (name2 : List Char)
    (h : ¬(sd2 = sd ∧ name2 = name)) : fsRemove fs sd name sd2 name2 = fs sd2 name2 := by
  simp only [fsRemove, if_neg h]

lemma tmp_ne_json (k : List Char) : k ++ jsonExt ++ tmpExt ≠ k ++ jsonExt := by
  intro h
  have h2 := congrArg List.length h
  have hj : jsonExt.length = 5 := by decide
  have ht : tmpExt.length = 4 := by decide
  simp only [List.length_append] at h2
  omega

/-- C6: at whatever stage `Cache.Set` is interrupted, the entry's final path
holds either what it held before the call or the complete new entry — never
the bytes of an interrupted write.  Only the `os.Rename` step (atomic)
touches the final path; the temporary-file writes touch `<path>.tmp` only. -/
theorem cache_set_atomic_commit (α : Type) (fs : Fs α) (key : List Char) (v : α)
    (now : Int) (st : SetStage) (raw : List Char) :
    cacheSetAt fs key v now st raw (routeSubdir (sanitizeKey key))
        (sanitizeKey key ++ jsonExt) =
      fs (routeSubdir (sanitizeKey key)) (sanitizeKey key ++ jsonExt) ∨
    cacheSetAt fs key v now st raw (routeSubdir (sanitizeKey key))
        (sanitizeKey key ++ jsonExt) =
      some (.entry { data := v, timestamp := now }) := by
  cases st with
  | before => exact Or.inl rfl
  | tmpInterrupted =>
    exact Or.inl (fsWrite_ne fs _ _ _ _ _ (fun h => tmp_ne_json _ h.2.symm))
  | tmpWritten =>
    exact Or.inl (fsWrite_ne fs _ _ _ _ _ (fun h => tmp_ne_json _ h.2.symm))
  | renamed =>
    right
    show fsRename _ _ _ _ _ _ = _
    rw [fsRename, fsWrite_self]
    exact fsWrite_self _ _ _ _

/-- C7: `IsStale(key, maxAge)` is true if and only if no entry for the key
can be read and parsed, or the elapsed time since the entry's stored write
timestamp exceeds `maxAge`; in particular an entry written at `t0 = 0` with
`maxAge` of 1000 ms is not stale 500 ms later and stale 1500 ms later. -/
theorem cache_isStale_spec :
    (∀ (α : Type) (fs : Fs α) (key : List Char) (now maxAge : Int),
      cacheIsStale fs key now maxAge = true ↔
        probeEntry fs key = none ∨
          ∃ e : CacheEntry α, probeEntry fs key = some e ∧ now - e.timestamp > maxAge) ∧
    cacheIsStale (cacheSet (fsEmpty : Fs Nat) "k".toList 0 0) "k".toList 500 1000 = false ∧
    cacheIsStale (cacheSet (fsEmpty : Fs Nat) "k".toList 0 0) "k".toList 1500 1000 = true := by
  refine ⟨?_, by decide, by decide⟩
  intro α fs key now maxAge
  unfold cacheIsStale probeEntry
  cases hp : cacheProbe fs key with
  | none => simp
  | some c =>
    cases c with
    | entry e => simp [decide_eq_true_eq]
    | truncated raw => simp

lemma map_eq_self_of_mem {α : Type} {f : α → α} :
    ∀ {l : List α}, l.map f = l → ∀ a ∈ l, f a = a := by
  intro l
  induction l with
  | nil =>
    intro _ a ha
    exact absurd ha (by simp)
  | cons b t ih =>
    intro h a ha
    simp only [List.map_cons, List.cons.injEq] at h
    rcases List.mem_cons.mp ha with rfl | hmem
    · exact h.1
    · exact ih h.2 a hmem

lemma sanitizeKey_eq_self {key : List Char} (h : ∀ c ∈ key, c ≠ '/' ∧ c ≠ '\\') :
    sanitizeKey key = key := by
  unfold sanitizeKey
  have h2 : key.map sanitizeChar = key.map id :=
    List.map_congr_left (fun c hc => by simp [sanitizeChar, (h c hc).1, (h c hc).2])
  simpa using h2

lemma sanitizeKey_ne_self {key : List Char} (h : ∃ c ∈ key, c = '/' ∨ c = '\\') :
    sanitizeKey key ≠ key := by
  obtain ⟨c, hc, hor⟩ := h
  intro he
  have hfix := map_eq_self_of_mem he c hc
  rcases hor with rfl | rfl
  · exact absurd hfix (by decide)
  · exact absurd hfix (by decide)

/-- C10: `Set` followed by `Get` of a key free of `/` and `\` (on a file
system where no other subdirectory shadows the key's file) finds the stored
value; whereas for a key containing `/` or `\`, `Set` stores the entry under
the sanitized file name, which `Get` — probing with the raw key — never
finds. -/
theorem cache_set_get_roundtrip (α : Type) :
    (∀ (fs : Fs α) (key : List Char) (v : α) (now : Int),
      (∀ c ∈ key, c ≠ '/' ∧ c ≠ '\\') →
      (∀ sd : Subdir, sd ≠ routeSubdir key → fs sd (key ++ jsonExt) = none) →
      cacheGet (cacheSet fs key v now) key = .found v) ∧
    (∀ (fs : Fs α) (key : List Char) (v : α) (now : Int),
      (∃ c ∈ key, c = '/' ∨ c = '\\') →
      (∀ sd : Subdir, fs sd (key ++ jsonExt) = none) →
      cacheGet (cacheSet fs key v now) key = .notFound) := by
  constructor
  · intro fs key v now hkey habs
    have hsan : sanitizeKey key = key := sanitizeKey_eq_self hkey
    have hlook : ∀ sd2 : Subdir, cacheSet fs key v now sd2 (key ++ jsonExt) =
        if sd2 = routeSubdir key then
          some (.entry { data := v, timestamp := now })
        else fs sd2 (key ++ jsonExt) := by
      intro sd2
      simp only [cacheSet, cacheSetAt, hsan, fsRename, fsWrite_self]
      by_cases hsd : sd2 = routeSubdir key
      · rw [if_pos hsd, hsd]
        exact fsWrite_self _ _ _ _
      · rw [if_neg hsd, fsWrite_ne _ _ _ _ _ _ (fun hh => hsd hh.1),
          fsRemove_ne _ _ _ _ _ (fun hh => hsd hh.1),
          fsWrite_ne _ _ _ _ _ _ (fun hh => hsd hh.1)]
    unfold cacheGet cacheProbe
    cases hroute : routeSubdir key with
    | series => simp [hlook, hroute]
    | downloads =>
      simp [hlook, hroute, habs Subdir.series (by rw [hroute]; intro hcon; cases hcon)]
    | state =>
      simp [hlook, hroute, habs Subdir.series (by rw [hroute]; intro hcon; cases hcon),
        habs Subdir.downloads (by rw [hroute]; intro hcon; cases hcon)]
  · intro fs key v now hkey habs
    have hne : sanitizeKey key ≠ key := sanitizeKey_ne_self hkey
    have hlen : (sanitizeKey key).length = key.length := List.length_map _ _
    have hfin : sanitizeKey key ++ jsonExt ≠ key ++ jsonExt :=
      fun h => hne ((List.append_left_inj _).mp h)
    have htmp : sanitizeKey key ++ jsonExt ++ tmpExt ≠ key ++ jsonExt := by
      intro h
      have h2 := congrArg List.length h
      have hj : jsonExt.length = 5 := by decide
      have ht : tmpExt.length = 4 := by decide
      simp only [List.length_append, hlen] at h2
      omega
    have hlook : ∀ sd2 : Subdir,
        cacheSet fs key v now sd2 (key ++ jsonExt) = fs sd2 (key ++ jsonExt) := by
      intro sd2
      simp only [cacheSet, cacheSetAt, fsRename, fsWrite_self]
      rw [fsWrite_ne _ _ _ _ _ _ (fun hh => hfin hh.2.symm),
        fsRemove_ne _ _ _ _ _ (fun hh => htmp hh.2.symm),
        fsWrite_ne _ _ _ _ _ _ (fun hh => htmp hh.2.symm)]
    unfold cacheGet cacheProbe
    rw [hlook, hlook, hlook, habs, habs, habs]

/-- Witness for `cache_set_get_roundtrip`: the key `k` round-trips through
`Set` and `Get`, the key `a/b` is stored under `a_b.json` and not found. -/
theorem cache_set_get_roundtrip_witness :
    cacheGet (cacheSet (fsEmpty : Fs Nat) "k".toList 5 0) "k".toList = .found 5 ∧
    cacheGet (cacheSet (fsEmpty : Fs Nat) "a/b".toList 6 0) "a/b".toList = .notFound :=
  ⟨(cache_set_get_roundtrip Nat).1 fsEmpty "k".toList 5 0 (by decide) (fun _ _ => rfl),
   (cache_set_get_roundtrip Nat).2 fsEmpty "a/b".toList 6 0 (by decide) (fun _ => rfl)⟩

/-! ## C3: the per-episode skip decision
(`DownloadSeries`, src/internal/downloader/series.go:781-796, and
`tryDownload`, src/unnamed/part_005:126-149)

Go, the orchestrator loop:

```
if state.Completed[episode.VimeoId] {
    fmt.Printf("- [x] Episode ... (already downloaded)")
    continue                       // skipped, no disk check
}
episodesToDownload = append(episodesToDownload, episode)
```

and, inside the worker, `tryDownload`:

```
if info, err := os.Stat(outputPath); err == nil && info.Size() > 0 {
    return nil                     // file present and non-empty: no fetch
}
... // fetch
```

`completed` is the persisted ledger (`DownloadState.Completed`); `diskSize`
is `some s` when `os.Stat` on the destination file succeeds reporting size
`s`, and `none` when the file is missing. -/

inductive EpisodeAction
  | skippedByLedger
  | skippedByDisk
  | fetched
deriving DecidableEq, Repr

def planEpisode (completed : List String) (diskSize : Option Int) (vimeoId : String) :
    EpisodeAction :=
  if completed.contains vimeoId then .skippedByLedger
  else
    match diskSize with
    | some sz => if sz > 0 then .skippedByDisk else .fetched
    | none => .fetched

/-- C3, counterexample to the claim as stated: with a ledger marking episode
`x` complete and the destination file missing from disk, a re-run skips the
episode on the ledger alone — it is not re-fetched, and no disk verification
happens. -/
theorem ledger_complete_missing_file_skipped :
    planEpisode ["x"] none "x" = .skippedByLedger ∧
    planEpisode ["x"] none "x" ≠ .fetched := by
  decide

/-- C3, corrected: an episode marked complete in the persisted ledger is
always skipped, with no verification of the destination file; the disk is
consulted only for episodes the ledger does not mark complete, where an
existing file of positive size short-circuits the fetch, and otherwise the
episode is fetched. -/
theorem episode_skip_decision (completed : List String) (diskSize : Option Int)
    (vimeoId : String) :
    (completed.contains vimeoId = true →
      planEpisode completed diskSize vimeoId = .skippedByLedger) ∧
    (completed.contains vimeoId = false →
      (∃ sz, diskSize = some sz ∧ 0 < sz) →
      planEpisode completed diskSize vimeoId = .skippedByDisk) ∧
    (completed.contains vimeoId = false →
      ¬(∃ sz, diskSize = some sz ∧ 0 < sz) →
      planEpisode completed diskSize vimeoId = .fetched) := by
  refine ⟨?_, ?_, ?_⟩
  · intro h
    have hm : vimeoId ∈ completed := by simpa using h
    simp [planEpisode, hm]
  · rintro h ⟨sz, rfl, hsz⟩
    have hm : vimeoId ∉ completed := by simpa using h
    simp [planEpisode, hm, hsz]
  · intro h hno
    have hm : vimeoId ∉ completed := by simpa using h
    cases hd : diskSize with
    | none => simp [planEpisode, hm]
    | some sz =>
      have hsz : ¬ 0 < sz := fun hpos => hno ⟨sz, hd, hpos⟩
      simp [planEpisode, hm, hsz]

/-- Witness for `episode_skip_decision` at a ledger holding `x`, a missing
file, and episode `x`. -/
theorem episode_skip_decision_witness :
    ((["x"] : List String).contains "x" = true →
      planEpisode ["x"] none "x" = .skippedByLedger) ∧
    ((["x"] : List String).contains "x" = false →
      (∃ sz, (none : Option Int) = some sz ∧ 0 < sz) →
      planEpisode ["x"] none "x" = .skippedByDisk) ∧
    ((["x"] : List String).contains "x" = false →
      ¬(∃ sz, (none : Option Int) = some sz ∧ 0 < sz) →
      planEpisode ["x"] none "x" = .fetched) :=
  episode_skip_decision ["x"] none "x"

end LaracastsDL
